import Mathlib

/-!
Verification development for `file/addfs/per_node.go`.

The file shallowly embeds the addfs per-node overlay: `ApplyPerNodeFuncs`
wraps an `fsnode.Parent` so that every directory level exposes a reserved
`...` child containing, for each original entry, a synthetic directory of
"addition" nodes computed by a list of `PerNodeFunc`s.

Modelling choices:
- `Node` is a deep embedding of `fsnode.T` values as seen by this core:
  concrete leaves and directories (the external tree), plus the three node
  kinds built by `per_node.go` itself (`wrapped` = `perNodeImpl`,
  `addsD` = `perNodeAdds`, `perEntry` = the `fsnode.NewParent` built by
  `newAddsForChild`).
- A `PerNodeFunc` is identified by the string that `%v` formatting would
  print for it; its behaviour is an environment `Env` passed to every
  observation function, so claims can quantify over arbitrary function
  lists.
- Go map iteration order (`for _, add := range adds`) is unspecified; the
  accumulator is modelled canonically as an insertion-ordered association
  list, and `newAddsChildrenWith` takes an explicit reordering parameter
  ranging over permutations to model the nondeterministic map range order.
- `log.Error.Printf` diagnostics are modelled as an output list of strings.
-/

/-- File metadata surface used by per_node.go: name, dir bit, permission
bits (low 9 bits of the Go `FileMode`), modification time and the
cache-validity duration (`fsnode.CacheableFor`). -/
structure FInfo where
  name : String
  isDir : Bool
  perm : Nat
  modTime : Int
  cacheableFor : Int
deriving DecidableEq, Repr

/-- The reserved directory name, `const addsDirName = "..."` (line 69). -/
def addsDirName : String := "..."

/-- Errors surfaced by the embedded code: `NotFound` from child lookup,
calling a Parent method on a non-Parent, and the wrapped computation error
`fmt.Errorf("addfs: error running func %v: %w", fn, err)` (line 160),
which records the function's printed form and the inner error — and
nothing else. -/
inductive GoErr where
  | notFound (name : String)
  | notParent
  | funcErr (fn : String) (inner : String)
deriving DecidableEq, Repr

/-- Deep embedding of the `fsnode.T` values reachable in this core:
`leaf`/`dir` are concrete original nodes (the external collaborator's
tree, with `Child` = first name match and `Children` = the list);
`wrapped orig fns` is `perNodeImpl{orig, fns, adds}`;
`addsD orig fns` is the `perNodeAdds` value built by `ApplyPerNodeFuncs`;
`perEntry e fns` is the `fsnode.NewParent` directory built by
`newAddsForChild(e)`. -/
inductive Node where
  | leaf (info : FInfo)
  | dir (info : FInfo) (children : List Node)
  | wrapped (orig : Node) (fns : List String)
  | addsD (orig : Node) (fns : List String)
  | perEntry (orig : Node) (fns : List String)

/-- Behaviour of the `PerNodeFunc`s: for a function's identity (its `%v`
string) and an input node, `Apply`'s result — a list of addition nodes or
an error string. -/
abbrev Env := String → Node → Except String (List Node)

/-- Whether the Go type assertion `node.(fsnode.Parent)` succeeds
(`perNodeRecurse`, lines 181-184): every node kind here except a plain
leaf is an `fsnode.Parent`. -/
def Node.isParent : Node → Bool
  | .leaf _ => false
  | _ => true

/-- The node's `Info()`.
`wrapped` delegates to the embedded original (struct embedding, line 73);
`addsD` carries `CopyFileInfo(original.Info()).WithName(addsDirName)`
(line 89); `perEntry` carries
`NewDirInfo(name).WithModTime(mt).WithModePerm(perm|0o111).WithCacheableFor(cf)`
(lines 150-154), with `fsnode.NewDirInfo` and the `With*` setters modelled
from the spec (§4.1, §4.6): a directory info holding exactly the fields
set here. -/
def Node.info : Node → FInfo
  | .leaf i => i
  | .dir i _ => i
  | .wrapped orig _ => orig.info
  | .addsD orig _ => { orig.info with name := addsDirName }
  | .perEntry e _ =>
    { name := e.info.name
      isDir := true
      perm := e.info.perm ||| 0o111
      modTime := e.info.modTime
      cacheableFor := e.info.cacheableFor }

/-- `ApplyPerNodeFuncs(original, fns...)` (lines 86-94): builds the
`perNodeImpl` wrapper (whose `adds` field is determined by `original` and
`fns`, so it is not stored separately in the embedding). -/
def applyPerNodeFuncs (orig : Node) (fns : List String) : Node :=
  .wrapped orig fns

/-- `perNodeRecurse(node, fns)` (lines 180-186): pass non-Parents through
unchanged, wrap Parents. -/
def perNodeRecurse (n : Node) (fns : List String) : Node :=
  if n.isParent then applyPerNodeFuncs n fns else n

/-- `fsnode.CacheableFor` on our node kinds, combined with
`perNodeImpl.CacheableFor` (line 96), which delegates to the wrapped
original. Modelled from the spec (§4.1): the optional Cacheable capability
is a per-node duration that this core only forwards; every other node kind
carries it in its info. -/
def cacheableForGo : Node → Int
  | .wrapped orig _ => cacheableForGo orig
  | n => n.info.cacheableFor

/-- Lookup in the addition accumulator by name (`adds[name]`). -/
def lookupAcc (acc : List (String × Node)) (n : String) : Option Node :=
  (acc.find? (fun p => p.1 == n)).map (fun p => p.2)

/-- Insertion (`adds[name] = add`) into the canonical insertion-ordered
representation of the Go map: overwrite in place if the key is present,
else append. -/
def insertAdd : List (String × Node) → String → Node → List (String × Node)
  | [], n, v => [(n, v)]
  | p :: rest, n, v =>
    if p.1 == n then (n, v) :: rest else p :: insertAdd rest n v

/-- The diagnostic text of
`log.Error.Printf("addfs %s: conflict for added name: %s", ...)`
(line 166). -/
def conflictMsg (entryName addName : String) : String :=
  "addfs " ++ entryName ++ ": conflict for added name: " ++ addName

/-- One iteration of the inner loop over `fnAdds` (lines 162-169): read
the addition's name, log a conflict diagnostic if the name is already in
the accumulator, then store the addition under its name. -/
def addOne (eName : String) (st : List (String × Node) × List String)
    (add : Node) : List (String × Node) × List String :=
  ( insertAdd st.1 add.info.name add
  , if (lookupAcc st.1 add.info.name).isSome
      then st.2 ++ [conflictMsg eName add.info.name]
      else st.2 )

/-- The loop over `n.fns` (lines 157-170): run each function in list
order; on error, return the wrapped error (and the diagnostics logged so
far); otherwise fold the additions into the accumulator. -/
def runFnsAcc (env : Env) (e : Node) (eName : String) :
    List String → List (String × Node) × List String →
    Except GoErr (List (String × Node)) × List String
  | [], st => (.ok st.1, st.2)
  | f :: rest, st =>
    match env f e with
    | .error err => (.error (.funcErr f err), st.2)
    | .ok fnAdds => runFnsAcc env e eName rest (fnAdds.foldl (addOne eName) st)

/-- The `fsnode.FuncChildren` body of `newAddsForChild` (lines 155-176),
parameterized by the iteration order of `for _, add := range adds`
(line 172): `order` rearranges the accumulator before each entry is
passed through `perNodeRecurse`; Go guarantees only that it yields a
permutation of the map's entries. -/
def newAddsChildrenWith
    (order : List (String × Node) → List (String × Node))
    (env : Env) (fns : List String) (e : Node) :
    Except GoErr (List Node) × List String :=
  match runFnsAcc env e e.info.name fns ([], []) with
  | (.error err, ds) => (.error err, ds)
  | (.ok acc, ds) =>
    (.ok ((order acc).map (fun p => perNodeRecurse p.2 fns)), ds)

/-- The `fsnode.FuncChildren` body of `newAddsForChild` under the
canonical (insertion-order) map iteration. -/
def newAddsChildren (env : Env) (fns : List String) (e : Node) :
    Except GoErr (List Node) × List String :=
  newAddsChildrenWith (fun l => l) env fns e

/-- A materialized `fsnode.Iterator`: the finite list it yields, or the
error that interrupts it. -/
abbrev Iter := Except GoErr (List Node)

/-- `fsnode.NewConcatIterator` on materialized iterators: yield the first
iterator's items, then the second's; the first error interrupts. -/
def concatIter (a b : Iter) : Iter :=
  match a with
  | .error e => .error e
  | .ok xs =>
    match b with
    | .error e => .error e
    | .ok ys => .ok (xs ++ ys)

/-- Item-by-item mapping of a materialized iterator; the first failing
item interrupts (`fsnode.MapIterator`). -/
def mapItems (f : Node → Except GoErr Node) : List Node → Iter
  | [] => .ok []
  | a :: as =>
    match f a with
    | .error e => .error e
    | .ok b =>
      match mapItems f as with
      | .error e => .error e
      | .ok bs => .ok (b :: bs)

/-- `fsnode.MapIterator` on materialized iterators. -/
def mapIter (f : Node → Except GoErr Node) (it : Iter) : Iter :=
  match it with
  | .error e => .error e
  | .ok l => mapItems f l

/-- `Child(ctx, name)` on each node kind.
Concrete dirs: first child of that name, else NotFound (§4.1).
`wrapped`: `perNodeImpl.Child` (lines 97-106) — the reserved name returns
the adds directory without consulting the original; other names delegate
and pass successes through `perNodeRecurse`, propagating errors unchanged.
`addsD`: `perNodeAdds.Child` (lines 132-138) — delegate, then build the
per-entry directory. `perEntry`: modelled from the spec (§4.6,
`fsnode.NewParent` is not under src/): lookup by name in the computed
children. -/
def childOf (env : Env) : Node → String → Except GoErr Node
  | .leaf _, _ => .error .notParent
  | .dir _ cs, name =>
    match cs.find? (fun c => c.info.name == name) with
    | some c => .ok c
    | none => .error (.notFound name)
  | .wrapped orig fns, name =>
    if name == addsDirName then .ok (.addsD orig fns)
    else
      match childOf env orig name with
      | .error err => .error err
      | .ok child => .ok (perNodeRecurse child fns)
  | .addsD orig fns, name =>
    match childOf env orig name with
    | .error err => .error err
    | .ok child => .ok (.perEntry child fns)
  | .perEntry e fns, name =>
    match (newAddsChildren env fns e).1 with
    | .error err => .error err
    | .ok cs =>
      match cs.find? (fun c => c.info.name == name) with
      | some c => .ok c
      | none => .error (.notFound name)

/-- `Children()` on each node kind. Concrete dirs yield their list
(§4.1). `wrapped`: `perNodeImpl.Children` (lines 107-116) — the adds
directory concatenated with the original's children mapped through
`perNodeRecurse`. `addsD`: `perNodeAdds.Children` (lines 139-144) — the
original's children mapped into per-entry directories. `perEntry`: the
computed additions (lines 155-176). -/
def childrenOf (env : Env) : Node → Iter
  | .leaf _ => .error .notParent
  | .dir _ cs => .ok cs
  | .wrapped orig fns =>
    concatIter (.ok [.addsD orig fns])
      (mapIter (fun c => .ok (perNodeRecurse c fns)) (childrenOf env orig))
  | .addsD orig fns =>
    mapIter (fun c => .ok (.perEntry c fns)) (childrenOf env orig)
  | .perEntry e fns => (newAddsChildren env fns e).1

/-- The last element of `l` whose name is `m`, if any: the value that
last-writer-wins accumulation leaves under key `m`. -/
def lastMatch (m : String) (l : List Node) : Option Node :=
  l.foldl (fun o a => if a.info.name = m then some a else o) none

/-- Well-formedness of the accumulator representation: every entry is
stored under its node's name, and keys are pairwise distinct (as in a Go
map). -/
def AccWF (acc : List (String × Node)) : Prop :=
  (∀ p ∈ acc, p.1 = p.2.info.name) ∧ acc.Pairwise (fun p q => p.1 ≠ q.1)

/-- A concrete leaf entry named `a`, used by witnesses. -/
def leafA : Node :=
  .leaf { name := "a", isDir := false, perm := 0o644, modTime := 1, cacheableFor := 5 }

/-- A concrete leaf entry named `b`, used by witnesses. -/
def leafB : Node :=
  .leaf { name := "b", isDir := false, perm := 0o600, modTime := 4, cacheableFor := 2 }

/-- A concrete directory named `p` with the single child `leafA`, used by
witnesses. -/
def dirP : Node :=
  .dir { name := "p", isDir := true, perm := 0o755, modTime := 2, cacheableFor := 7 } [leafA]

/-- An environment of `PerNodeFunc`s that all return no additions. -/
def envNil : Env := fun _ _ => .ok []

/-- The concrete original child literally named `...`, used to exercise
the reserved-name shadowing invariant. -/
def dotChild : Node :=
  .dir { name := addsDirName, isDir := true, perm := 0o755, modTime := 3, cacheableFor := 0 } []

/-- A concrete directory whose only child is named `...`. -/
def dirWithDot : Node :=
  .dir { name := "p", isDir := true, perm := 0o755, modTime := 2, cacheableFor := 0 } [dotChild]

/-- Info of a first concrete addition named `x`. -/
def xInfo1 : FInfo :=
  { name := "x", isDir := false, perm := 0o644, modTime := 1, cacheableFor := 0 }

/-- Info of a second, different concrete addition named `x`. -/
def xInfo2 : FInfo :=
  { name := "x", isDir := false, perm := 0o600, modTime := 9, cacheableFor := 0 }

/-- An environment where functions `F1` and `F2` both return one addition
named `x` (different nodes), used by the C4 witness. -/
def envConflict : Env := fun f _ =>
  if f == "F1" then .ok [.leaf xInfo1] else .ok [.leaf xInfo2]

/-- An environment where every function fails with the same inner error,
used by the C5 counterexample. -/
def envBoom : Env := fun _ _ => .error "boom"

/-- An environment where function `G` succeeds with no additions and
every other function fails, used by the C5 witness. -/
def envGBoom : Env := fun f _ =>
  if f == "G" then .ok [] else .error "boom"

/-- Info of a concrete addition named `a` with zeroed metadata. -/
def aInfo : FInfo :=
  { name := "a", isDir := false, perm := 0, modTime := 0, cacheableFor := 0 }

/-- Info of a concrete addition named `b` with zeroed metadata. -/
def bInfo : FInfo :=
  { name := "b", isDir := false, perm := 0, modTime := 0, cacheableFor := 0 }

/-- An environment where every function returns two additions with the
distinct names `a` and `b`, used by the C8 counterexample. -/
def envTwo : Env := fun _ _ => .ok [.leaf aInfo, .leaf bInfo]

/-- Mapping a never-failing function over a materialized iterator is a
plain `List.map`. -/
theorem mapItems_ok_eq_map (f : Node → Node) (l : List Node) :
    mapItems (fun a => .ok (f a)) l = .ok (l.map f) := by
  induction l with
  | nil => rfl
  | cons a as ih => simp [mapItems, ih]

/-- `perNodeRecurse` never changes a node's name. -/
theorem perNodeRecurse_info_name (n : Node) (fns : List String) :
    (perNodeRecurse n fns).info.name = n.info.name := by
  cases n <;>
    simp [perNodeRecurse, applyPerNodeFuncs, Node.isParent, Node.info]

/-- Unfolding lemma for `lookupAcc` on a cons cell. -/
theorem lookupAcc_cons (p : String × Node) (rest : List (String × Node)) (m : String) :
    lookupAcc (p :: rest) m = if p.1 == m then some p.2 else lookupAcc rest m := by
  cases hb : (p.1 == m) <;> simp [lookupAcc, List.find?_cons, hb]

/-- Lookup after a map-style insert: the inserted key now maps to the
inserted value; other keys are unchanged. -/
theorem lookupAcc_insertAdd (acc : List (String × Node)) (n : String) (v : Node)
    (m : String) :
    lookupAcc (insertAdd acc n v) m = if m = n then some v else lookupAcc acc m := by
  induction acc with
  | nil =>
    by_cases h : m = n
    · subst h; simp [insertAdd, lookupAcc_cons]
    · have : (n == m) = false := by simpa using Ne.symm h
      simp [insertAdd, lookupAcc_cons, this, h, lookupAcc]
  | cons p rest ih =>
    by_cases hp : (p.1 == n) = true
    · have hp' : p.1 = n := by simpa using hp
      simp only [insertAdd, if_pos hp]
      by_cases hm : m = n
      · subst hm; simp [lookupAcc_cons]
      · have h1 : (n == m) = false := by simpa using Ne.symm hm
        have h2 : (p.1 == m) = false := by rw [hp']; exact h1
        simp [lookupAcc_cons, h1, h2, hm]
    · simp only [insertAdd, if_neg hp]
      by_cases hm : (p.1 == m) = true
      · have hm' : p.1 = m := by simpa using hm
        have hne : ¬(m = n) := by
          intro hc; apply hp; rw [hm', hc]; simp
        simp [lookupAcc_cons, hm, hne]
      · simp [lookupAcc_cons, hm, ih]

/-- Lookup after folding a batch of additions into the accumulator:
last-writer-wins over the batch, falling back to the previous binding. -/
theorem lookup_foldl_addOne (eName : String) (adds : List Node) (m : String) :
    ∀ st, lookupAcc ((adds.foldl (addOne eName) st).1) m =
      adds.foldl (fun o a => if a.info.name = m then some a else o) (lookupAcc st.1 m) := by
  induction adds with
  | nil => intro st; rfl
  | cons a as ih =>
    intro st
    rw [List.foldl_cons, List.foldl_cons, ih]
    have : lookupAcc ((addOne eName st a).1) m =
        if a.info.name = m then some a else lookupAcc st.1 m := by
      show lookupAcc (insertAdd st.1 a.info.name a) m = _
      rw [lookupAcc_insertAdd]
      by_cases h : m = a.info.name
      · subst h; simp
      · have h2 : ¬(a.info.name = m) := fun hc => h hc.symm
        simp [h, h2]
    rw [this]

/-- Folding the keep-last-match step from an arbitrary starting value. -/
theorem foldl_lastMatch (m : String) (l : List Node) :
    ∀ init, l.foldl (fun o a => if a.info.name = m then some a else o) init =
      match lastMatch m l with
      | some a => some a
      | none => init := by
  have key : ∀ (l2 : List Node) (init : Option Node),
      l2.foldl (fun o a => if a.info.name = m then some a else o) init =
        match l2.foldl (fun o a => if a.info.name = m then some a else o) none with
        | some a => some a
        | none => init := by
    intro l2
    induction l2 with
    | nil => intro init; rfl
    | cons a as ih =>
      intro init
      rw [List.foldl_cons, List.foldl_cons, ih]
      conv_rhs => rw [ih]
      cases hF : as.foldl (fun o a => if a.info.name = m then some a else o) none with
      | some c => rfl
      | none => by_cases h : a.info.name = m <;> simp [h]
  intro init
  exact key l init

/-- Unfolding lemma for `lastMatch` on a cons cell. -/
theorem lastMatch_cons (m : String) (a : Node) (as : List Node) :
    lastMatch m (a :: as) =
      match lastMatch m as with
      | some c => some c
      | none => if a.info.name = m then some a else none := by
  show (a :: as).foldl (fun o a => if a.info.name = m then some a else o) none = _
  rw [List.foldl_cons]
  rw [foldl_lastMatch]

/-- The last match is a member of the list with the name looked for. -/
theorem lastMatch_mem (m : String) (l : List Node) (a : Node)
    (h : lastMatch m l = some a) : a ∈ l ∧ a.info.name = m := by
  induction l with
  | nil => cases h
  | cons b bs ih =>
    rw [lastMatch_cons] at h
    cases hl : lastMatch m bs with
    | some c =>
      rw [hl] at h
      injection h with h2
      subst h2
      obtain ⟨hmem, hname⟩ := ih hl
      exact ⟨List.mem_cons_of_mem _ hmem, hname⟩
    | none =>
      rw [hl] at h
      by_cases hb : b.info.name = m
      · rw [if_pos hb] at h
        injection h with h2
        subst h2
        exact ⟨List.mem_cons_self _ _, hb⟩
      · rw [if_neg hb] at h
        cases h

/-- If some element has the name looked for, the last match exists. -/
theorem lastMatch_isSome (m : String) (l : List Node) (a : Node)
    (ha : a ∈ l) (hm : a.info.name = m) : (lastMatch m l).isSome = true := by
  induction l with
  | nil => cases ha
  | cons b bs ih =>
    rw [lastMatch_cons]
    cases hl : lastMatch m bs with
    | some c => simp
    | none =>
      rcases List.mem_cons.mp ha with rfl | hbs
      · simp [hm]
      · have h2 := ih hbs
        rw [hl] at h2
        cases h2

/-- Membership in the accumulator after an insert: either an old entry or
the inserted pair. -/
theorem mem_insertAdd (acc : List (String × Node)) (n : String) (v : Node)
    (p : String × Node) (hp : p ∈ insertAdd acc n v) : p ∈ acc ∨ p = (n, v) := by
  induction acc with
  | nil =>
    simp only [insertAdd] at hp
    right
    simpa using hp
  | cons q rest ih =>
    simp only [insertAdd] at hp
    by_cases hq : (q.1 == n) = true
    · rw [if_pos hq] at hp
      rcases List.mem_cons.mp hp with rfl | h
      · right; rfl
      · left; exact List.mem_cons_of_mem _ h
    · rw [if_neg hq] at hp
      rcases List.mem_cons.mp hp with rfl | h
      · left; exact List.mem_cons_self _ _
      · rcases ih h with h2 | h2
        · left; exact List.mem_cons_of_mem _ h2
        · right; exact h2

/-- Accumulator well-formedness is preserved by a map-style insert of a
node under its own name. -/
theorem accWF_insertAdd (v : Node) :
    ∀ acc, AccWF acc → AccWF (insertAdd acc v.info.name v) := by
  intro acc
  induction acc with
  | nil =>
    intro _
    refine ⟨?_, ?_⟩
    · intro p hp
      simp only [insertAdd] at hp
      have : p = (v.info.name, v) := by simpa using hp
      subst this
      rfl
    · simp [insertAdd]
  | cons q rest ih =>
    intro h
    obtain ⟨hkv, hnd⟩ := h
    rw [List.pairwise_cons] at hnd
    obtain ⟨hq_rest, hnd_rest⟩ := hnd
    have hWFrest : AccWF rest :=
      ⟨fun p hp => hkv p (List.mem_cons_of_mem _ hp), hnd_rest⟩
    simp only [insertAdd]
    by_cases hq : (q.1 == v.info.name) = true
    · rw [if_pos hq]
      have hq' : q.1 = v.info.name := by simpa using hq
      refine ⟨?_, ?_⟩
      · intro p hp
        rcases List.mem_cons.mp hp with rfl | hp2
        · rfl
        · exact hkv p (List.mem_cons_of_mem _ hp2)
      · rw [List.pairwise_cons]
        refine ⟨?_, hnd_rest⟩
        intro p hp
        have := hq_rest p hp
        rw [hq'] at this
        exact this
    · rw [if_neg hq]
      have hq' : q.1 ≠ v.info.name := by simpa using hq
      refine ⟨?_, ?_⟩
      · intro p hp
        rcases List.mem_cons.mp hp with rfl | hp2
        · exact hkv _ (List.mem_cons_self _ _)
        · rcases mem_insertAdd rest v.info.name v p hp2 with h3 | h3
          · exact hkv p (List.mem_cons_of_mem _ h3)
          · subst h3; rfl
      · rw [List.pairwise_cons]
        refine ⟨?_, (ih hWFrest).2⟩
        intro p hp
        rcases mem_insertAdd rest v.info.name v p hp with h3 | h3
        · exact hq_rest p h3
        · subst h3; exact hq'

/-- Accumulator well-formedness is preserved by folding in a batch of
additions. -/
theorem accWF_foldl (eName : String) (adds : List Node) :
    ∀ st, AccWF st.1 → AccWF ((adds.foldl (addOne eName) st).1) := by
  induction adds with
  | nil => intro st h; exact h
  | cons a as ih =>
    intro st h
    rw [List.foldl_cons]
    exact ih _ (accWF_insertAdd a st.1 h)

/-- Filtering the recursed children by a name which the well-formed
accumulator binds yields exactly that binding's node, recursed. -/
theorem filter_recurse_of_lookup (fns : List String) (x : String) (v : Node) :
    ∀ acc, AccWF acc → lookupAcc acc x = some v →
      (acc.map (fun p => perNodeRecurse p.2 fns)).filter
        (fun c => c.info.name == x) = [perNodeRecurse v fns] := by
  intro acc
  induction acc with
  | nil => intro _ h; cases h
  | cons q rest ih =>
    intro hwf hl
    obtain ⟨hkv, hnd⟩ := hwf
    rw [List.pairwise_cons] at hnd
    obtain ⟨hq_rest, hnd_rest⟩ := hnd
    rw [lookupAcc_cons] at hl
    by_cases hq : (q.1 == x) = true
    · rw [if_pos hq] at hl
      injection hl with hl
      have hq' : q.1 = x := by simpa using hq
      have hkvq : q.1 = q.2.info.name := hkv q (List.mem_cons_self _ _)
      have hname : ((perNodeRecurse q.2 fns).info.name == x) = true := by
        rw [perNodeRecurse_info_name, ← hkvq, hq']
        simp
      have hstep : List.filter (fun c => c.info.name == x)
          (perNodeRecurse q.2 fns :: rest.map (fun p => perNodeRecurse p.2 fns))
          = perNodeRecurse q.2 fns
              :: List.filter (fun c => c.info.name == x)
                  (rest.map (fun p => perNodeRecurse p.2 fns)) := by
        simp [List.filter_cons, hname]
      have hrest : (rest.map (fun p => perNodeRecurse p.2 fns)).filter
          (fun c => c.info.name == x) = [] := by
        rw [List.filter_eq_nil_iff]
        intro c hc
        rcases List.mem_map.mp hc with ⟨p, hp, rfl⟩
        have h1 : q.1 ≠ p.1 := hq_rest p hp
        have h2 : p.1 = p.2.info.name := hkv p (List.mem_cons_of_mem _ hp)
        rw [perNodeRecurse_info_name, ← h2]
        simp only [beq_iff_eq]
        intro hc2
        exact h1 (by rw [hq', ← hc2])
      rw [List.map_cons, hstep, hrest, hl]
    · rw [if_neg hq] at hl
      have hkvq : q.1 = q.2.info.name := hkv q (List.mem_cons_self _ _)
      have hname : ((perNodeRecurse q.2 fns).info.name == x) = false := by
        rw [perNodeRecurse_info_name, ← hkvq]
        simpa using hq
      have hstep : List.filter (fun c => c.info.name == x)
          (perNodeRecurse q.2 fns :: rest.map (fun p => perNodeRecurse p.2 fns))
          = List.filter (fun c => c.info.name == x)
              (rest.map (fun p => perNodeRecurse p.2 fns)) := by
        simp [List.filter_cons, hname]
      rw [List.map_cons, hstep]
      exact ih ⟨fun p hp => hkv p (List.mem_cons_of_mem _ hp), hnd_rest⟩ hl

/-- Folding a batch of additions only ever appends to the diagnostics. -/
theorem foldl_diags_extend (eName : String) (adds : List Node) :
    ∀ st, ∃ t, (adds.foldl (addOne eName) st).2 = st.2 ++ t := by
  induction adds with
  | nil => intro st; exact ⟨[], by simp⟩
  | cons a as ih =>
    intro st
    rw [List.foldl_cons]
    obtain ⟨t, ht⟩ := ih (addOne eName st a)
    by_cases h : (lookupAcc st.1 a.info.name).isSome = true
    · refine ⟨[conflictMsg eName a.info.name] ++ t, ?_⟩
      rw [ht]
      simp [addOne, h]
    · refine ⟨t, ?_⟩
      rw [ht]
      simp [addOne, h]

/-- Nonempty diagnostics stay nonempty while folding in additions. -/
theorem foldl_diags_ne_nil (eName : String) (adds : List Node)
    (st : List (String × Node) × List String) (h : st.2 ≠ []) :
    (adds.foldl (addOne eName) st).2 ≠ [] := by
  obtain ⟨t, ht⟩ := foldl_diags_extend eName adds st
  rw [ht]
  intro hc
  rcases List.append_eq_nil.mp hc with ⟨h1, _⟩
  exact h h1

/-- If the accumulator already binds a name and the batch adds that name
again, the conflict diagnostic makes the final diagnostics nonempty. -/
theorem foldl_diags_conflict (eName : String) (adds : List Node) (m : String) :
    ∀ st, (lookupAcc st.1 m).isSome = true → (∃ a ∈ adds, a.info.name = m) →
      (adds.foldl (addOne eName) st).2 ≠ [] := by
  induction adds with
  | nil =>
    intro st _ hmem
    rcases hmem with ⟨a, ha, _⟩
    cases ha
  | cons a as ih =>
    intro st hs hmem
    rw [List.foldl_cons]
    by_cases hname : a.info.name = m
    · apply foldl_diags_ne_nil
      have h2 : (lookupAcc st.1 a.info.name).isSome = true := by
        rw [hname]; exact hs
      simp [addOne, h2]
    · rcases hmem with ⟨b, hb, hbm⟩
      rcases List.mem_cons.mp hb with rfl | hb2
      · exact absurd hbm hname
      · apply ih (addOne eName st a) _ ⟨b, hb2, hbm⟩
        show (lookupAcc (insertAdd st.1 a.info.name a) m).isSome = true
        rw [lookupAcc_insertAdd]
        by_cases h2 : m = a.info.name
        · simp [h2]
        · rw [if_neg h2]; exact hs

/-- Running the functions over a concatenated list is running the first
part, then (unless it failed) resuming the second from the accumulated
state: the functions run strictly in list order. -/
theorem runFnsAcc_append (env : Env) (e : Node) (eName : String)
    (fns1 fns2 : List String) :
    ∀ st, runFnsAcc env e eName (fns1 ++ fns2) st =
      match runFnsAcc env e eName fns1 st with
      | (.ok acc, ds) => runFnsAcc env e eName fns2 (acc, ds)
      | (.error er, ds) => (.error er, ds) := by
  induction fns1 with
  | nil => intro st; rfl
  | cons f rest ih =>
    intro st
    rw [List.cons_append]
    simp only [runFnsAcc]
    cases henv : env f e with
    | error err => rfl
    | ok fnAdds => exact ih _

/-- If every function before `f` succeeds and `f` fails, the whole run
fails with the error wrapping `f`, whatever functions follow and whatever
state was accumulated. -/
theorem runFnsAcc_error_of (env : Env) (e : Node) (eName : String)
    (f : String) (err : String) (hf : env f e = .error err) :
    ∀ pre, (∀ g ∈ pre, ∃ adds, env g e = .ok adds) →
      ∀ post st, (runFnsAcc env e eName (pre ++ f :: post) st).1 =
        .error (.funcErr f err) := by
  intro pre
  induction pre with
  | nil =>
    intro _ post st
    simp [runFnsAcc, hf]
  | cons g rest ih =>
    intro hpre post st
    obtain ⟨adds, hg⟩ := hpre g (List.mem_cons_self _ _)
    rw [List.cons_append]
    simp only [runFnsAcc, hg]
    exact ih (fun g2 hg2 => hpre g2 (List.mem_cons_of_mem _ hg2)) post _

/-- C1: for every directory `P`, function list `F`, and context, asking
the overlay wrapper for the child with the reserved name `...` succeeds
and returns the Additions Directory built for `(P, F)`. The statement
quantifies over every `P` and every environment, including ones whose own
child lookup would fail or return something else for `...`, so the
original's lookup is not consulted (perNodeImpl.Child, lines 97-100). -/
theorem c1_child_reserved (env : Env) (P : Node) (fns : List String) :
    childOf env (applyPerNodeFuncs P fns) addsDirName = .ok (.addsD P fns) := by
  simp [applyPerNodeFuncs, childOf]

/-- C7: a per-entry additions directory carries the entry's name, the
entry's modification time, permission bits equal to the entry's with all
three execute bits forced on (hence always at least `0o111`, even for a
zero-permission entry), and the entry's cache-validity duration
(newAddsForChild, lines 147-154). -/
theorem c7_perEntry_metadata (e : Node) (fns : List String) :
    (Node.info (.perEntry e fns)).name = e.info.name
    ∧ (Node.info (.perEntry e fns)).modTime = e.info.modTime
    ∧ (Node.info (.perEntry e fns)).perm = e.info.perm ||| 0o111
    ∧ (Node.info (.perEntry e fns)).perm &&& 0o111 = 0o111
    ∧ (Node.info (.perEntry e fns)).cacheableFor = e.info.cacheableFor := by
  refine ⟨rfl, rfl, rfl, ?_, rfl⟩
  show (e.info.perm ||| 0o111) &&& 0o111 = 0o111
  apply Nat.eq_of_testBit_eq
  intro i
  rw [Nat.testBit_and, Nat.testBit_or]
  cases h : Nat.testBit 0o111 i <;> simp [h]

/-- C10: the overlay wrapper's own metadata is exactly the wrapped
original's — same name, permission bits and modification time (struct
embedding of the original Parent, line 73) — and its cache-validity
duration is the original's (perNodeImpl.CacheableFor, line 96). -/
theorem c10_wrapper_metadata (P : Node) (fns : List String) :
    (Node.info (applyPerNodeFuncs P fns)).name = P.info.name
    ∧ (Node.info (applyPerNodeFuncs P fns)).perm = P.info.perm
    ∧ (Node.info (applyPerNodeFuncs P fns)).modTime = P.info.modTime
    ∧ Node.info (applyPerNodeFuncs P fns) = P.info
    ∧ cacheableForGo (applyPerNodeFuncs P fns) = cacheableForGo P :=
  ⟨rfl, rfl, rfl, rfl, rfl⟩

/-- C3: the child sequence of `wrap(P,F)` is the one-element sequence
holding the Additions Directory for `(P,F)` concatenated with `P`'s own
child sequence mapped through `perNodeRecurse(_, F)` (perNodeImpl.Children,
lines 107-116); an error from the original's iterator propagates to the
same error on both sides. -/
theorem c3_children_shape (env : Env) (P : Node) (fns : List String) :
    childrenOf env (applyPerNodeFuncs P fns) =
      (childrenOf env P).map
        (fun cs => Node.addsD P fns :: cs.map (fun c => perNodeRecurse c fns)) := by
  cases h : childrenOf env P with
  | error err =>
    simp [applyPerNodeFuncs, childrenOf, concatIter, mapIter, h, Except.map]
  | ok cs =>
    simp [applyPerNodeFuncs, childrenOf, concatIter, mapIter, h, Except.map,
      mapItems_ok_eq_map]

/-- C2: for a non-reserved name, the overlay wrapper delegates to the
original: a found child with the Parent capability comes back wrapped, a
found leaf comes back unchanged, and a lookup failure is propagated
unchanged (perNodeImpl.Child, lines 101-105, with perNodeRecurse,
lines 180-186). -/
theorem c2_child_nonreserved (env : Env) (P : Node) (fns : List String)
    (name : String) (hname : name ≠ addsDirName) :
    (∀ e, childOf env P name = .ok e →
        childOf env (applyPerNodeFuncs P fns) name =
          .ok (if e.isParent then applyPerNodeFuncs e fns else e))
    ∧ (∀ err, childOf env P name = .error err →
        childOf env (applyPerNodeFuncs P fns) name = .error err) := by
  have hbeq : (name == addsDirName) = false := by
    simpa using hname
  constructor
  · intro e he
    simp [applyPerNodeFuncs, childOf, hbeq, he, perNodeRecurse]
  · intro err he
    simp [applyPerNodeFuncs, childOf, hbeq, he]

/-- Witness for C2 at a concrete input: in `wrap(dirP, [])`, looking up
the leaf entry `a` returns the leaf itself unchanged. -/
theorem c2_child_nonreserved_witness :
    childOf envNil (applyPerNodeFuncs dirP []) "a" = .ok leafA := by
  have h := (c2_child_nonreserved envNil dirP [] "a" (by decide)).1 leafA
    (by simp [childOf, dirP, leafA, Node.info])
  simpa [leafA, Node.isParent] using h

/-- C6 (failing input): `Child` does shadow an original entry named `...`
behind the synthetic Additions Directory, but `Children` does not: the
listing of `wrap(dirWithDot, [])` also yields the wrapped original `...`
entry, which bears the reserved name yet is not the Additions Directory,
so the original is still reachable through the listing
(perNodeImpl.Children, lines 107-116; the TODO at line 111 records the
missing filter, and the doc comment at lines 56-57 states the intended
shadowing). -/
theorem c6_reserved_name_leaks_in_listing :
    childOf envNil (applyPerNodeFuncs dirWithDot []) addsDirName =
        .ok (.addsD dirWithDot [])
    ∧ childrenOf envNil (applyPerNodeFuncs dirWithDot []) =
        .ok [.addsD dirWithDot [], .wrapped dotChild []]
    ∧ (Node.info (.wrapped dotChild [])).name = addsDirName
    ∧ Node.wrapped dotChild [] ≠ Node.addsD dirWithDot [] := by
  refine ⟨by simp [applyPerNodeFuncs, childOf], ?_, rfl, fun h => Node.noConfusion h⟩
  simp [applyPerNodeFuncs, childrenOf, concatIter, mapIter, mapItems, dirWithDot,
    perNodeRecurse, Node.isParent, dotChild]

/-- C9: double wrapping does not collapse: the child listing of
`wrap(wrap(P,F),F)` starts with the outer level's Additions Directory
followed by the recursed inner Additions Directory; both bear the
reserved name and they are distinct nodes (ApplyPerNodeFuncs, lines 86-94;
perNodeImpl.Children, lines 107-116). -/
theorem c9_double_wrap_two_reserved (env : Env) (P : Node) (fns : List String)
    (cs : List Node) (h : childrenOf env P = .ok cs) :
    ∃ rest,
      childrenOf env (applyPerNodeFuncs (applyPerNodeFuncs P fns) fns) =
        .ok (Node.addsD (applyPerNodeFuncs P fns) fns
              :: perNodeRecurse (Node.addsD P fns) fns :: rest)
      ∧ (Node.info (Node.addsD (applyPerNodeFuncs P fns) fns)).name = addsDirName
      ∧ (Node.info (perNodeRecurse (Node.addsD P fns) fns)).name = addsDirName
      ∧ Node.addsD (applyPerNodeFuncs P fns) fns ≠ perNodeRecurse (Node.addsD P fns) fns := by
  refine ⟨(cs.map (fun c => perNodeRecurse c fns)).map (fun c => perNodeRecurse c fns),
    ?_, rfl, ?_, ?_⟩
  · simp [applyPerNodeFuncs, childrenOf, concatIter, mapIter, h, mapItems_ok_eq_map,
      mapItems, perNodeRecurse, Node.isParent]
  · simp [perNodeRecurse, Node.isParent, applyPerNodeFuncs, Node.info]
  · simp only [perNodeRecurse, Node.isParent, applyPerNodeFuncs, if_pos]
    exact fun h2 => Node.noConfusion h2

/-- Witness for C9 at a concrete input: double-wrapping the concrete
directory `dirP` exposes the two distinct reserved directories. -/
theorem c9_double_wrap_two_reserved_witness :
    ∃ rest,
      childrenOf envNil (applyPerNodeFuncs (applyPerNodeFuncs dirP []) []) =
        .ok (Node.addsD (applyPerNodeFuncs dirP []) []
              :: perNodeRecurse (Node.addsD dirP []) [] :: rest)
      ∧ (Node.info (Node.addsD (applyPerNodeFuncs dirP []) [])).name = addsDirName
      ∧ (Node.info (perNodeRecurse (Node.addsD dirP []) [])).name = addsDirName
      ∧ Node.addsD (applyPerNodeFuncs dirP []) []
          ≠ perNodeRecurse (Node.addsD dirP []) [] :=
  c9_double_wrap_two_reserved envNil dirP [] [leafA] rfl

/-- C4: when `F1` and `F2` both return an addition named `x` for entry
`e`, the per-entry additions computation succeeds, its children contain
exactly one entry named `x` — the last `x`-named addition of `F2` (later
function wins; within one function later same-named additions overwrite
earlier ones), included through `perNodeRecurse` as the spec's step 4
prescribes (identity on leaves) — and the conflict is reported as a
nonempty diagnostic, not an error (newAddsForChild, lines 156-170). -/
theorem c4_conflict_last_wins (env : Env) (e : Node) (F1 F2 : String)
    (adds1 adds2 : List Node) (a2 : Node)
    (h1 : env F1 e = .ok adds1) (h2 : env F2 e = .ok adds2)
    (hx1 : ∃ a ∈ adds1, a.info.name = "x")
    (hx2 : lastMatch "x" adds2 = some a2) :
    ∃ cs ds, newAddsChildren env [F1, F2] e = (.ok cs, ds)
      ∧ cs.filter (fun c => c.info.name == "x") = [perNodeRecurse a2 [F1, F2]]
      ∧ ds ≠ [] := by
  have hrun : runFnsAcc env e e.info.name [F1, F2] ([], []) =
      (.ok ((adds2.foldl (addOne e.info.name)
              (adds1.foldl (addOne e.info.name) ([], []))).1),
       (adds2.foldl (addOne e.info.name)
              (adds1.foldl (addOne e.info.name) ([], []))).2) := by
    simp [runFnsAcc, h1, h2]
  have hWF0 : AccWF ([] : List (String × Node)) := ⟨by simp, by simp⟩
  have hWF1 := accWF_foldl e.info.name adds1 ([], []) hWF0
  have hWF2 := accWF_foldl e.info.name adds2 _ hWF1
  have hlook1 : (lookupAcc ((adds1.foldl (addOne e.info.name) ([], [])).1) "x").isSome
      = true := by
    rw [lookup_foldl_addOne, foldl_lastMatch]
    obtain ⟨a1, ha1, hn1⟩ := hx1
    have := lastMatch_isSome "x" adds1 a1 ha1 hn1
    cases hl : lastMatch "x" adds1 with
    | some c => simp
    | none => rw [hl] at this; cases this
  have hlook2 : lookupAcc ((adds2.foldl (addOne e.info.name)
      (adds1.foldl (addOne e.info.name) ([], []))).1) "x" = some a2 := by
    rw [lookup_foldl_addOne, foldl_lastMatch, hx2]
  obtain ⟨hmem2, hname2⟩ := lastMatch_mem "x" adds2 a2 hx2
  refine ⟨((adds2.foldl (addOne e.info.name)
      (adds1.foldl (addOne e.info.name) ([], []))).1).map
        (fun p => perNodeRecurse p.2 [F1, F2]),
    (adds2.foldl (addOne e.info.name)
      (adds1.foldl (addOne e.info.name) ([], []))).2, ?_, ?_, ?_⟩
  · simp only [newAddsChildren, newAddsChildrenWith, hrun]
  · exact filter_recurse_of_lookup [F1, F2] "x" a2 _ hWF2 hlook2
  · exact foldl_diags_conflict e.info.name adds2 "x" _ hlook1 ⟨a2, hmem2, hname2⟩

/-- Witness for C4 at a concrete input: `F1` and `F2` each add one leaf
named `x`; the computation keeps exactly `F2`'s leaf (a leaf passes
through `perNodeRecurse` unchanged) and emits a conflict diagnostic. -/
theorem c4_conflict_last_wins_witness :
    envConflict "F1" leafA = .ok [.leaf xInfo1]
    ∧ envConflict "F2" leafA = .ok [.leaf xInfo2]
    ∧ (∃ a ∈ [Node.leaf xInfo1], a.info.name = "x")
    ∧ lastMatch "x" [Node.leaf xInfo2] = some (.leaf xInfo2)
    ∧ ∃ cs ds, newAddsChildren envConflict ["F1", "F2"] leafA = (.ok cs, ds)
        ∧ cs.filter (fun c => c.info.name == "x")
            = [perNodeRecurse (.leaf xInfo2) ["F1", "F2"]]
        ∧ ds ≠ [] :=
  ⟨rfl, rfl, ⟨.leaf xInfo1, by simp, rfl⟩, rfl,
    c4_conflict_last_wins envConflict leafA "F1" "F2" [.leaf xInfo1] [.leaf xInfo2]
      (.leaf xInfo2) rfl rfl ⟨.leaf xInfo1, by simp, rfl⟩ rfl⟩

/-- C5 (counterexample to entry identification): the failure surfaced by
the per-entry computation is `fmt.Errorf("addfs: error running func %v:
%w", fn, err)` (line 160), which names the function and the inner error
but not the entry: two distinct entries produce the very same failure
value, so the failure does not identify which entry failed. -/
theorem c5_error_not_entry_specific :
    (newAddsChildren envBoom ["F1"] leafA).1 = .error (.funcErr "F1" "boom")
    ∧ (newAddsChildren envBoom ["F1"] leafB).1 = .error (.funcErr "F1" "boom")
    ∧ leafA ≠ leafB := by
  refine ⟨rfl, rfl, ?_⟩
  intro h
  rw [leafA, leafB] at h
  injection h with h2
  exact absurd h2 (by decide)

/-- C5 (amended): if every function before `f` succeeds for entry `e` and
`f` fails, the per-entry computation aborts immediately — the result does
not depend on the functions after `f`, which are never invoked — returns
no partial results, and surfaces a failure identifying the failing
function and wrapping its error (but not naming the entry)
(newAddsForChild, lines 157-161). -/
theorem c5_amended_fail_fast (env : Env) (e : Node) (pre : List String)
    (f : String) (err : String)
    (hpre : ∀ g ∈ pre, ∃ adds, env g e = .ok adds)
    (hf : env f e = .error err) :
    ∀ post, (newAddsChildren env (pre ++ f :: post) e).1 =
      .error (.funcErr f err) := by
  intro post
  have h := runFnsAcc_error_of env e e.info.name f err hf pre hpre post ([], [])
  rcases hr : runFnsAcc env e e.info.name (pre ++ f :: post) ([], []) with ⟨r, ds⟩
  rw [hr] at h
  simp only [newAddsChildren, newAddsChildrenWith, hr]
  cases r with
  | error er => simpa using h
  | ok acc => simp at h

/-- Witness for C5's amended statement at a concrete input: `G` succeeds,
`F` fails, and the following `H` does not change the failure. -/
theorem c5_amended_fail_fast_witness :
    (∀ g ∈ ["G"], ∃ adds, envGBoom g leafA = .ok adds)
    ∧ envGBoom "F" leafA = .error "boom"
    ∧ (newAddsChildren envGBoom (["G"] ++ "F" :: ["H"]) leafA).1 =
        .error (.funcErr "F" "boom") := by
  have hpre : ∀ g ∈ ["G"], ∃ adds, envGBoom g leafA = .ok adds := by
    intro g hg
    rcases List.mem_singleton.mp hg with rfl
    exact ⟨[], rfl⟩
  exact ⟨hpre, rfl,
    c5_amended_fail_fast envGBoom leafA ["G"] "F" "boom" hpre rfl ["H"]⟩

/-- C8 (counterexample to deterministic order): the accumulator is a Go
`map[string]fsnode.T` (line 156) and the children are emitted by ranging
over it (line 172), whose order Go does not fix; two legitimate iteration
orders of the same two-entry map — modelled by the identity and by
`List.reverse`, which yield permutations of the same accumulator — give
the same children in different orders, so two invocations need not yield
the same order. -/
theorem c8_map_order_not_deterministic :
    (newAddsChildrenWith (fun l => l) envTwo ["F1"] leafA).1 =
        .ok [.leaf aInfo, .leaf bInfo]
    ∧ (newAddsChildrenWith List.reverse envTwo ["F1"] leafA).1 =
        .ok [.leaf bInfo, .leaf aInfo]
    ∧ ([Node.leaf aInfo, Node.leaf bInfo] : List Node)
        ≠ [Node.leaf bInfo, Node.leaf aInfo]
    ∧ ([Node.leaf aInfo, Node.leaf bInfo] : List Node).Perm
        [Node.leaf bInfo, Node.leaf aInfo] := by
  refine ⟨rfl, rfl, ?_, List.Perm.swap _ _ _⟩
  intro h
  injection h with h1 _
  rw [aInfo, bInfo] at h1
  injection h1 with h2
  exact absurd h2 (by decide)

/-- C8 (amended): the functions do run strictly in list order (the run
over a concatenation resumes the second part from the first part's
accumulated state), and for any map iteration order — any permutation of
the accumulator — the computation yields the same diagnostics and the
same children up to order; the order itself is not deterministic
(newAddsForChild, lines 155-176). -/
theorem c8_amended_unordered_deterministic
    (order : List (String × Node) → List (String × Node))
    (env : Env) (fns : List String) (e : Node)
    (hperm : ∀ l, (order l).Perm l) :
    (∀ fns1 fns2 st, runFnsAcc env e e.info.name (fns1 ++ fns2) st =
        match runFnsAcc env e e.info.name fns1 st with
        | (.ok acc, ds) => runFnsAcc env e e.info.name fns2 (acc, ds)
        | (.error er, ds) => (.error er, ds))
    ∧ (∀ cs, (newAddsChildren env fns e).1 = .ok cs →
        ∃ cs2, (newAddsChildrenWith order env fns e).1 = .ok cs2 ∧ cs2.Perm cs)
    ∧ (newAddsChildrenWith order env fns e).2 = (newAddsChildren env fns e).2 := by
  refine ⟨fun fns1 fns2 st => runFnsAcc_append env e e.info.name fns1 fns2 st, ?_, ?_⟩
  · intro cs hcs
    rcases hr : runFnsAcc env e e.info.name fns ([], []) with ⟨r, ds⟩
    cases r with
    | error er =>
      rw [newAddsChildren, newAddsChildrenWith, hr] at hcs
      simp at hcs
    | ok acc =>
      rw [newAddsChildren, newAddsChildrenWith, hr] at hcs
      simp only at hcs
      refine ⟨(order acc).map (fun p => perNodeRecurse p.2 fns), ?_, ?_⟩
      · simp only [newAddsChildrenWith, hr]
      · have hp := (hperm acc).map (fun p => perNodeRecurse p.2 fns)
        have hcs2 : acc.map (fun p => perNodeRecurse p.2 fns) = cs := by
          injection hcs
        rw [← hcs2]
        exact hp
  · rcases hr : runFnsAcc env e e.info.name fns ([], []) with ⟨r, ds⟩
    cases r <;> simp [newAddsChildren, newAddsChildrenWith, hr]

/-- Witness for C8's amended statement at a concrete input: reversing the
two-entry accumulator is a permutation-respecting iteration order, and it
yields the same diagnostics and a permutation of the canonical children. -/
theorem c8_amended_unordered_deterministic_witness :
    (∀ l : List (String × Node), (List.reverse l).Perm l)
    ∧ (∀ cs, (newAddsChildren envTwo ["F1"] leafA).1 = .ok cs →
        ∃ cs2, (newAddsChildrenWith List.reverse envTwo ["F1"] leafA).1 = .ok cs2
          ∧ cs2.Perm cs)
    ∧ (newAddsChildrenWith List.reverse envTwo ["F1"] leafA).2 =
        (newAddsChildren envTwo ["F1"] leafA).2 := by
  have hperm : ∀ l : List (String × Node), (List.reverse l).Perm l :=
    fun l => List.reverse_perm l
  have h := c8_amended_unordered_deterministic List.reverse envTwo ["F1"] leafA hperm
  exact ⟨hperm, h.2.1, h.2.2⟩
